import Mathlib

/-!
# Voting chaincode (`atcc.go`): embedding and checked properties

The chaincode is a contract object with four handlers (`InitLedger`,
`CreateVote`, `VoteExists`, `GetAllVotes`) over the key-value interface of a
ledger host.  The handlers are embedded as functions that pass the ledger
explicitly; the host's world state is an association list kept in ascending
key order, and whether a host call fails is decided by a `Host` record, so
that every error branch of the source is reachable.

Go strings are byte sequences, so they are modelled as lists of byte values.
`json.Marshal` is embedded for the `Vote` struct as `encoding/json` performs
it, including the coercion of strings to valid UTF-8.  `json.Unmarshal` is a
parameter `dec` of `GetAllVotes`; what the theorems need of it is stated as
`DecodesMarshal`, and `jsonUnmarshal`, a decoder for the objects
`json.Marshal` writes, is shown to satisfy it.
-/

namespace Atcc

/-! ## Go strings and errors -/

/-- A Go `string` or `[]byte`: a finite sequence of bytes, each element a byte
value.  (An element above 255 is not a byte; the functions below treat it like
a byte that cannot start a rune.) -/
abbrev GoString := List Nat

/-- The bytes of an ASCII literal of the source. -/
def ascii (s : String) : GoString := s.data.map Char.toNat

/-- A Go `error`, identified with its message (`err.Error()`). -/
structure GoError where
  msg : GoString
deriving DecidableEq, Repr

/-- The call `fmt.Errorf(lit + "%v", err)`: a new error whose message is the
literal followed by the message of `err`. -/
def errorfV (lit : String) (err : GoError) : GoError := ⟨ascii lit ++ err.msg⟩

/-- The call `fmt.Errorf(pre + "%s" + post, s)`. -/
def errorfS (pre : String) (s : GoString) (post : String) : GoError :=
  ⟨ascii pre ++ s ++ ascii post⟩

/-- Go's `<` on strings: bytewise lexicographic order.  The ledger orders its
keys the same way. -/
def keyLt : GoString → GoString → Bool
  | [], [] => false
  | [], _ :: _ => true
  | _ :: _, [] => false
  | a :: as, b :: bs => decide (a < b) || (decide (a = b) && keyLt as bs)

/-! ## The record type -/

/-- The struct `Vote` of the source, fields in declaration order. -/
structure Vote where
  Candidate : GoString
  CPR : GoString
  ID : GoString
  Name : GoString
  PoliticalParty : GoString
deriving DecidableEq, Repr

/-! ## UTF-8 as `unicode/utf8` reads it -/

/-- The value `utf8.RuneError`, U+FFFD. -/
def runeError : Nat := 0xFFFD

/-- A continuation byte, `0x80..0xBF`. -/
def isCont (b : Nat) : Bool := decide (0x80 ≤ b) && decide (b ≤ 0xBF)

/-- The function `utf8.DecodeRuneInString`: the first rune of `s` and its width
in bytes; `(RuneError, 0)` on the empty string and `(RuneError, 1)` when the
first bytes are not a valid encoding (overlong forms, surrogates and values
above U+10FFFF are not valid). -/
def decodeRune : GoString → Nat × Nat
  | [] => (runeError, 0)
  | b0 :: rest =>
    if b0 < 0x80 then (b0, 1)
    else if 0xC2 ≤ b0 ∧ b0 ≤ 0xDF then
      match rest with
      | b1 :: _ =>
        if isCont b1 then ((b0 % 32) * 64 + b1 % 64, 2) else (runeError, 1)
      | _ => (runeError, 1)
    else if 0xE0 ≤ b0 ∧ b0 ≤ 0xEF then
      match rest with
      | b1 :: b2 :: _ =>
        if (if b0 = 0xE0 then 0xA0 else 0x80) ≤ b1 ∧
            b1 ≤ (if b0 = 0xED then 0x9F else 0xBF) ∧ isCont b2 then
          ((b0 % 16) * 4096 + (b1 % 64) * 64 + b2 % 64, 3)
        else (runeError, 1)
      | _ => (runeError, 1)
    else if 0xF0 ≤ b0 ∧ b0 ≤ 0xF4 then
      match rest with
      | b1 :: b2 :: b3 :: _ =>
        if (if b0 = 0xF0 then 0x90 else 0x80) ≤ b1 ∧
            b1 ≤ (if b0 = 0xF4 then 0x8F else 0xBF) ∧ isCont b2 ∧ isCont b3 then
          ((b0 % 8) * 262144 + (b1 % 64) * 4096 + (b2 % 64) * 64 + b3 % 64, 4)
        else (runeError, 1)
      | _ => (runeError, 1)
    else (runeError, 1)

/-- The function `utf8.AppendRune` for a rune that is neither a surrogate nor
above U+10FFFF. -/
def encodeRune (r : Nat) : GoString :=
  if r < 0x80 then [r]
  else if r < 0x800 then [0xC0 + r / 64, 0x80 + r % 64]
  else if r < 0x10000 then [0xE0 + r / 4096, 0x80 + (r / 64) % 64, 0x80 + r % 64]
  else [0xF0 + r / 262144, 0x80 + (r / 4096) % 64, 0x80 + (r / 64) % 64, 0x80 + r % 64]

/-- The function `utf8.ValidString`, run with a step budget: every rune of `s`
is validly encoded. -/
def validLoop : Nat → GoString → Bool
  | 0, s => s.isEmpty
  | _ + 1, [] => true
  | fuel + 1, b :: rest =>
    let d := decodeRune (b :: rest)
    if d.1 = runeError ∧ d.2 = 1 then false
    else validLoop fuel (rest.drop (d.2 - 1))

/-- The function `utf8.ValidString`. -/
def utf8Valid (s : GoString) : Bool := validLoop s.length s

/-! ## `json.Marshal` on `Vote` -/

/-- Lower-case hexadecimal digit, the table `hex` of `encoding/json`. -/
def hexDigit (n : Nat) : Nat := if n < 10 then 0x30 + n else 0x57 + n

/-- The table `htmlSafeSet` of `encoding/json`: the ASCII bytes that
`json.Marshal` copies into a string literal unescaped. -/
def htmlSafe (b : Nat) : Bool :=
  decide (0x20 ≤ b) && decide (b < 0x80) && !decide (b = 0x22) && !decide (b = 0x5C) &&
    !decide (b = 0x26) && !decide (b = 0x3C) && !decide (b = 0x3E)

/-- The escape `encoding/json` writes for an ASCII byte outside `htmlSafeSet`:
a backslash and the byte for the quote and the backslash, a backslash and a
letter for backspace, form feed, line feed, carriage return and tab, and
`u00` with two hexadecimal digits for the rest.  (Before Go 1.22 backspace and
form feed were written with `u00` as well; a JSON reader gives the same byte
for both forms.) -/
def escapeByte (b : Nat) : GoString :=
  if b = 0x22 ∨ b = 0x5C then [0x5C, b]
  else if b = 0x08 then [0x5C, 0x62]
  else if b = 0x0C then [0x5C, 0x66]
  else if b = 0x0A then [0x5C, 0x6E]
  else if b = 0x0D then [0x5C, 0x72]
  else if b = 0x09 then [0x5C, 0x74]
  else [0x5C, 0x75, 0x30, 0x30, hexDigit (b / 16), hexDigit (b % 16)]

/-- The loop of `encoding/json` that writes the inside of a string literal,
with a step budget (one step per rune).  ASCII bytes are copied or escaped;
a byte that does not start a valid rune is written as the escape of U+FFFD
("coerced to valid UTF-8, replacing invalid bytes with the Unicode replacement
rune"); U+2028 and U+2029 are escaped; any other rune is copied. -/
def stringLoop : Nat → GoString → GoString
  | 0, _ => []
  | _ + 1, [] => []
  | fuel + 1, b :: rest =>
    if b < 0x80 then
      (if htmlSafe b then [b] else escapeByte b) ++ stringLoop fuel rest
    else
      let d := decodeRune (b :: rest)
      if d.1 = runeError ∧ d.2 = 1 then
        [0x5C, 0x75, 0x66, 0x66, 0x66, 0x64] ++ stringLoop fuel rest
      else if d.1 = 0x2028 ∨ d.1 = 0x2029 then
        [0x5C, 0x75, 0x32, 0x30, 0x32, hexDigit (d.1 % 16)] ++
          stringLoop fuel (rest.drop (d.2 - 1))
      else
        (b :: rest).take d.2 ++ stringLoop fuel (rest.drop (d.2 - 1))

/-- A Go string as a JSON string literal, quotes included. -/
def jsonString (s : GoString) : GoString :=
  0x22 :: (stringLoop s.length s ++ [0x22])

/-- One member of a JSON object: the quoted field name, a colon, the value. -/
def jsonField (name : String) (value : GoString) : GoString :=
  0x22 :: (ascii name ++ 0x22 :: 0x3A :: jsonString value)

/-- The bytes `json.Marshal` writes for a `Vote`: an object with the five
fields in declaration order. -/
def voteJSON (v : Vote) : GoString :=
  0x7B :: (jsonField "Candidate" v.Candidate ++ 0x2C ::
    (jsonField "CPR" v.CPR ++ 0x2C ::
    (jsonField "ID" v.ID ++ 0x2C ::
    (jsonField "Name" v.Name ++ 0x2C ::
    (jsonField "PoliticalParty" v.PoliticalParty ++ [0x7D])))))

/-- The call `json.Marshal(asset)`: bytes and error.  Every value of a struct
of strings can be encoded, so the error is always nil. -/
def jsonMarshal (v : Vote) : GoString × Option GoError := (voteJSON v, none)

/-- What a string becomes when it is written by `json.Marshal` and read back:
each byte that does not start a valid rune is replaced by the encoding of
U+FFFD, everything else is kept. -/
def coerceLoop : Nat → GoString → GoString
  | 0, _ => []
  | _ + 1, [] => []
  | fuel + 1, b :: rest =>
    let d := decodeRune (b :: rest)
    if d.1 = runeError ∧ d.2 = 1 then
      [0xEF, 0xBF, 0xBD] ++ coerceLoop fuel rest
    else
      (b :: rest).take d.2 ++ coerceLoop fuel (rest.drop (d.2 - 1))

/-- The string `s` coerced to valid UTF-8. -/
def coerceUTF8 (s : GoString) : GoString := coerceLoop s.length s

/-- A record with every field coerced to valid UTF-8. -/
def Vote.coerce (v : Vote) : Vote :=
  ⟨coerceUTF8 v.Candidate, coerceUTF8 v.CPR, coerceUTF8 v.ID, coerceUTF8 v.Name,
    coerceUTF8 v.PoliticalParty⟩

/-- Every field of the record is valid UTF-8. -/
def Vote.valid (v : Vote) : Bool :=
  utf8Valid v.Candidate && utf8Valid v.CPR && utf8Valid v.ID && utf8Valid v.Name &&
    utf8Valid v.PoliticalParty

/-! ## A decoder for what `json.Marshal` writes -/

/-- The value of a hexadecimal digit. -/
def hexVal (c : Nat) : Option Nat :=
  if 0x30 ≤ c ∧ c ≤ 0x39 then some (c - 0x30)
  else if 0x61 ≤ c ∧ c ≤ 0x66 then some (c - 0x57)
  else if 0x41 ≤ c ∧ c ≤ 0x46 then some (c - 0x37)
  else none

/-- The byte a one-letter JSON escape stands for. -/
def unescape (c : Nat) : Option Nat :=
  if c = 0x22 ∨ c = 0x5C ∨ c = 0x2F then some c
  else if c = 0x62 then some 0x08
  else if c = 0x66 then some 0x0C
  else if c = 0x6E then some 0x0A
  else if c = 0x72 then some 0x0D
  else if c = 0x74 then some 0x09
  else none

/-- Reads the inside of a JSON string literal up to its closing quote, with a
step budget: the decoded string and the input after the quote.  Escapes are
resolved, a byte that does not start a valid rune is read as U+FFFD, a raw
control character is refused, and so is the escape of a surrogate. -/
def unquoteLoop : Nat → GoString → Option (GoString × GoString)
  | 0, _ => none
  | _ + 1, [] => none
  | fuel + 1, b :: rest =>
    if b = 0x22 then some ([], rest)
    else if b = 0x5C then
      match rest with
      | [] => none
      | e :: rest1 =>
        if e = 0x75 then
          match rest1 with
          | h1 :: h2 :: h3 :: h4 :: rest2 =>
            match hexVal h1, hexVal h2, hexVal h3, hexVal h4 with
            | some x1, some x2, some x3, some x4 =>
              let r := ((x1 * 16 + x2) * 16 + x3) * 16 + x4
              if 0xD800 ≤ r ∧ r < 0xE000 then none
              else (unquoteLoop fuel rest2).map fun p => (encodeRune r ++ p.1, p.2)
            | _, _, _, _ => none
          | _ => none
        else
          match unescape e with
          | some c => (unquoteLoop fuel rest1).map fun p => (c :: p.1, p.2)
          | none => none
    else if b < 0x20 then none
    else if b < 0x80 then (unquoteLoop fuel rest).map fun p => (b :: p.1, p.2)
    else
      let d := decodeRune (b :: rest)
      if d.1 = runeError ∧ d.2 = 1 then
        (unquoteLoop fuel rest).map fun p => (encodeRune runeError ++ p.1, p.2)
      else
        (unquoteLoop fuel (rest.drop (d.2 - 1))).map fun p =>
          ((b :: rest).take d.2 ++ p.1, p.2)

/-- Removes the literal `lit` from the front of the input, if it is there. -/
def stripLit : GoString → GoString → Option GoString
  | [], s => some s
  | _ :: _, [] => none
  | a :: as, b :: bs => if a = b then stripLit as bs else none

/-- Reads one object member with the given name and a string value: the
decoded value and the input after it. -/
def readField (name : String) (s : GoString) : Option (GoString × GoString) :=
  match stripLit (0x22 :: (ascii name ++ [0x22, 0x3A, 0x22])) s with
  | some s1 => unquoteLoop s1.length s1
  | none => none

/-- The error of the decoder below. -/
def decodeError : GoError := ⟨ascii "invalid character"⟩

/-- A decoder for the objects `json.Marshal` writes for a `Vote`: the five
members in declaration order, compact.  `json.Unmarshal` decodes these objects
to the same record; it also accepts other layouts of an object (white space,
members in another order, unknown members), which this decoder refuses. -/
def jsonUnmarshal (data : GoString) : Except GoError Vote :=
  match stripLit [0x7B] data with
  | none => .error decodeError
  | some s0 =>
  match readField "Candidate" s0 with
  | none => .error decodeError
  | some (candidate, s1) =>
  match (stripLit [0x2C] s1).bind (readField "CPR") with
  | none => .error decodeError
  | some (cpr, s2) =>
  match (stripLit [0x2C] s2).bind (readField "ID") with
  | none => .error decodeError
  | some (id, s3) =>
  match (stripLit [0x2C] s3).bind (readField "Name") with
  | none => .error decodeError
  | some (name, s4) =>
  match (stripLit [0x2C] s4).bind (readField "PoliticalParty") with
  | none => .error decodeError
  | some (party, s5) =>
    if s5 = [0x7D] then
      .ok { Candidate := candidate, CPR := cpr, ID := id, Name := name, PoliticalParty := party }
    else .error decodeError

/-- What the chaincode relies on in `json.Unmarshal`: an object written by
`json.Marshal` for a record is decoded to that record, each field coerced to
valid UTF-8 as `json.Marshal` wrote it. -/
def DecodesMarshal (dec : GoString → Except GoError Vote) : Prop :=
  ∀ v : Vote, dec (voteJSON v) = .ok v.coerce

/-! ## The ledger host -/

/-- The world state: the key/value pairs of the ledger.  The host keeps them
in ascending key order (`World.ascending`), the order in which a range scan
returns them. -/
abbrev World := List (GoString × GoString)

/-- The value stored under a key, if any. -/
def World.get : World → GoString → Option GoString
  | [], _ => none
  | (k, v) :: rest, key => if key = k then some v else World.get rest key

/-- The world state with `value` stored under `key`: an existing pair is
replaced, a new pair is inserted at its place in ascending key order. -/
def World.put (key value : GoString) : World → World
  | [] => [(key, value)]
  | (k, v) :: rest =>
    if key = k then (key, value) :: rest
    else if keyLt key k then (key, value) :: (k, v) :: rest
    else (k, v) :: World.put key value rest

/-- The keys are strictly ascending. -/
def World.ascending (w : World) : Prop :=
  List.Pairwise (fun a b => keyLt a.1 b.1 = true) w

instance (w : World) : Decidable w.ascending :=
  inferInstanceAs
    (Decidable (List.Pairwise (fun a b : GoString × GoString => keyLt a.1 b.1 = true) w))

/-- The behaviour of the host that the chaincode does not control: which of
its calls fail, and with which error.  A fault of `Next` is given per key the
iterator has reached. -/
structure Host where
  getFault : GoString → Option GoError
  putFault : GoString → GoString → Option GoError
  rangeFault : Option GoError
  nextFault : GoString → Option GoError

/-- A host on which no call fails. -/
def Host.reliable : Host := ⟨fun _ => none, fun _ _ => none, none, fun _ => none⟩

/-- What a transaction context gives access to: the world state, and the
`PutState` calls issued so far (key and value, in order of issue). -/
structure Ledger where
  world : World
  puts : List (GoString × GoString)
deriving DecidableEq, Repr

/-- The call `ctx.GetStub().GetState(key)`: the value (nil when the key holds
none) and the error. -/
def GetState (h : Host) (l : Ledger) (key : GoString) : Option GoString × Option GoError :=
  match h.getFault key with
  | some err => (none, some err)
  | none => (l.world.get key, none)

/-- The call `ctx.GetStub().PutState(key, value)`: the error and the ledger
after the call.  The call is recorded; when it succeeds the value is in the
world state at once, and when it fails the world state is as it was.  (Whether
the host keeps the writes of an invocation that returns an error is not the
chaincode's business.) -/
def PutState (h : Host) (l : Ledger) (key value : GoString) : Option GoError × Ledger :=
  match h.putFault key value with
  | some err => (some err, { l with puts := l.puts ++ [(key, value)] })
  | none => (none, { world := l.world.put key value, puts := l.puts ++ [(key, value)] })

/-- The call `ctx.GetStub().GetStateByRange("", "")`, which the source
describes as "an open-ended query of all assets in the chaincode namespace":
an iterator over all pairs of the world state in key order, given as the list
of pairs still to come, and the error. -/
def GetStateByRange (h : Host) (l : Ledger) : World × Option GoError :=
  match h.rangeFault with
  | some err => ([], some err)
  | none => (l.world, none)

/-! ## The handlers -/

/-- The slice `assets` of `InitLedger`. -/
def assets : List Vote :=
  [ { ID := ascii "asset1", Candidate := ascii "blue", CPR := ascii "202000-1821",
      Name := ascii "Tomoko", PoliticalParty := ascii "Venstre" },
    { ID := ascii "asset2", Candidate := ascii "red", CPR := ascii "202000-1821",
      Name := ascii "Brad", PoliticalParty := ascii "Socialdemokratiet" },
    { ID := ascii "asset3", Candidate := ascii "green", CPR := ascii "202000-1821",
      Name := ascii "Jin Soo", PoliticalParty := ascii "Liberal alliance" },
    { ID := ascii "asset4", Candidate := ascii "yellow", CPR := ascii "202000-1821",
      Name := ascii "Max", PoliticalParty := ascii "SF" },
    { ID := ascii "asset5", Candidate := ascii "black", CPR := ascii "202000-1821",
      Name := ascii "Adriana", PoliticalParty := ascii "Dansk folkeparti" },
    { ID := ascii "asset6", Candidate := ascii "white", CPR := ascii "202000-1821",
      Name := ascii "Michel", PoliticalParty := ascii "Enhedslisten" } ]

/-- The loop `for _, asset := range assets` of `InitLedger`, over the records
still to be written: the returned error and the ledger at the return. -/
def initLoop (h : Host) : List Vote → Ledger → Option GoError × Ledger
  | [], l => (none, l)
  | asset :: rest, l =>
    match jsonMarshal asset with
    | (_, some err) => (some err, l)
    | (assetJSON, none) =>
      match PutState h l asset.ID assetJSON with
      | (some err, l1) => (some (errorfV "failed to put to world state. " err), l1)
      | (none, l1) => initLoop h rest l1

/-- The handler `InitLedger`: the returned error and the ledger at the
return. -/
def InitLedger (h : Host) (l : Ledger) : Option GoError × Ledger :=
  initLoop h assets l

/-- The handler `VoteExists`: the returned boolean and error. -/
def VoteExists (h : Host) (l : Ledger) (cpr : GoString) : Bool × Option GoError :=
  match GetState h l cpr with
  | (_, some err) => (false, some (errorfV "failed to read from world state: " err))
  | (assetJSON, none) => (assetJSON.isSome, none)

/-- The handler `CreateVote`: the returned error and the ledger at the
return. -/
def CreateVote (h : Host) (l : Ledger) (id candidate cpr name politicalParty : GoString) :
    Option GoError × Ledger :=
  match VoteExists h l id with
  | (_, some err) => (some err, l)
  | (true, none) => (some (errorfS "the asset " id " already exists"), l)
  | (false, none) =>
    let asset : Vote :=
      { ID := id, Candidate := candidate, CPR := cpr, Name := name,
        PoliticalParty := politicalParty }
    match jsonMarshal asset with
    | (_, some err) => (some err, l)
    | (assetJSON, none) => PutState h l id assetJSON

/-- The loop `for resultsIterator.HasNext()` of `GetAllVotes`, over the pairs
the iterator still has, with the slice `assets` built so far: the returned
slice (nil on an error) and error. -/
def scanLoop (dec : GoString → Except GoError Vote) (h : Host) :
    World → List Vote → List Vote × Option GoError
  | [], acc => (acc, none)
  | (key, value) :: rest, acc =>
    match h.nextFault key with
    | some err => ([], some err)
    | none =>
      match dec value with
      | .error err => ([], some err)
      | .ok asset => scanLoop dec h rest (acc ++ [asset])

/-- The handler `GetAllVotes`, with `json.Unmarshal` on a fresh `Vote` as the
parameter `dec`: the returned slice and error. -/
def GetAllVotes (dec : GoString → Except GoError Vote) (h : Host) (l : Ledger) :
    List Vote × Option GoError :=
  match GetStateByRange h l with
  | (_, some err) => ([], some err)
  | (resultsIterator, none) => scanLoop dec h resultsIterator []

/-! ## Transactions -/

/-- An invocation of a handler, with its arguments. -/
inductive Op where
  | initLedger
  | createVote (id candidate cpr name politicalParty : GoString)
  | voteExists (id : GoString)
  | getAllVotes
deriving DecidableEq, Repr

/-- The ledger after an invocation.  `VoteExists` and `GetAllVotes` issue only
`GetState` and `GetStateByRange`, which leave the ledger as it is. -/
def exec (h : Host) (l : Ledger) : Op → Ledger
  | .initLedger => (InitLedger h l).2
  | .createVote id candidate cpr name politicalParty =>
    (CreateVote h l id candidate cpr name politicalParty).2
  | .voteExists _ => l
  | .getAllVotes => l

/-- The ledger with an empty world state and no call issued. -/
def Ledger.empty : Ledger := ⟨[], []⟩

/-- A host whose every `GetState` fails, with the error "timeout". -/
def hostReadFails : Host := ⟨fun _ => some ⟨ascii "timeout"⟩, fun _ _ => none, none, fun _ => none⟩

/-- A host whose `GetStateByRange` fails, with the error "unavailable". -/
def hostRangeFails : Host :=
  ⟨fun _ => none, fun _ _ => none, some ⟨ascii "unavailable"⟩, fun _ => none⟩

/-- The world state after the records `xs` have been stored in turn. -/
def putAll (xs : List Vote) (w : World) : World :=
  xs.foldl (fun acc a => acc.put a.ID (voteJSON a)) w

/-- The `PutState` calls `InitLedger` issues for the records `xs`. -/
def putCalls (xs : List Vote) : List (GoString × GoString) :=
  xs.map fun a => (a.ID, voteJSON a)

/-- A host whose `PutState` fails, with the error "disk full", for the key
"asset3" only. -/
def hostPutFails : Host :=
  ⟨fun _ => none, fun key _ => if key = ascii "asset3" then some ⟨ascii "disk full"⟩ else none,
    none, fun _ => none⟩

/-- The record of the call `CreateVote("asset1", "pink", "1", "Eve", "SF")`. -/
def voteEve : Vote :=
  { ID := ascii "asset1", Candidate := ascii "pink", CPR := ascii "1", Name := ascii "Eve",
    PoliticalParty := ascii "SF" }

/-- The ledger after `CreateVote("asset1", "pink", "1", "Eve", "SF")` on the
empty ledger: the key "asset1" holds the serialization of that record. -/
def ledgerAsset1 : Ledger :=
  exec Host.reliable Ledger.empty
    (.createVote (ascii "asset1") (ascii "pink") (ascii "1") (ascii "Eve") (ascii "SF"))

/-- The record a decoder gives for a stored value (the zero record when the
decoder fails). -/
def recordOf (dec : GoString → Except GoError Vote) (value : GoString) : Vote :=
  match dec value with
  | .ok v => v
  | .error _ => ⟨[], [], [], [], []⟩

/-- The ledger after `CreateVote("asset0", "pink", "1", "Eve", "SF")` on the
empty ledger. -/
def ledgerAsset0 : Ledger :=
  exec Host.reliable Ledger.empty
    (.createVote (ascii "asset0") (ascii "pink") (ascii "1") (ascii "Eve") (ascii "SF"))

/-- What the world state holds after `InitLedger` has written its six
records. -/
def seeded : World := putCalls assets

/-- Every stored value is the serialization of a record whose ID is the key,
and the keys are strictly ascending. -/
def KeyIsID (w : World) : Prop :=
  w.ascending ∧ ∀ p ∈ w, ∃ v : Vote, v.ID = p.1 ∧ p.2 = voteJSON v

/-! ## The world state as a map -/

theorem World.get_put_same (w : World) (key value : GoString) :
    (w.put key value).get key = some value := by
  induction w with
  | nil => simp [World.put, World.get]
  | cons p rest ih =>
    obtain ⟨k, v⟩ := p
    simp only [World.put]
    split
    · simp [World.get]
    · split
      · simp [World.get]
      · simp [World.get, *]

theorem World.get_put_other (w : World) (key value other : GoString) (hne : other ≠ key) :
    (w.put key value).get other = w.get other := by
  induction w with
  | nil => simp [World.put, World.get, hne]
  | cons p rest ih =>
    obtain ⟨k, v⟩ := p
    simp only [World.put]
    split
    · next hk => subst hk; simp [World.get, hne]
    · split
      · simp [World.get, hne]
      · simp [World.get, ih]

/-- C1, as stated, fails: on the ledger that holds a record under "asset1",
with a host whose `GetState` fails with the error "timeout", `CreateVote` for
the id "asset1" does not return the error "the asset asset1 already exists";
it returns the read error as `VoteExists` wrapped it.  The ledger is left as
it was. -/
theorem createVote_read_error :
    ledgerAsset1.world.get (ascii "asset1") = some (voteJSON voteEve) ∧
      (CreateVote hostReadFails ledgerAsset1 (ascii "asset1") (ascii "blue") (ascii "1")
        (ascii "Ann") (ascii "SF")).1 ≠
        some ⟨ascii "the asset " ++ ascii "asset1" ++ ascii " already exists"⟩ ∧
      CreateVote hostReadFails ledgerAsset1 (ascii "asset1") (ascii "blue") (ascii "1")
        (ascii "Ann") (ascii "SF") =
        (some ⟨ascii "failed to read from world state: timeout"⟩, ledgerAsset1) := by
  decide

/-- C1, amended. When the world state holds a non-nil value under `id`,
`CreateVote` leaves the ledger as it was on every host, also one whose
`GetState` fails: no `PutState` is issued and the world state, the value under
`id` included, is as before the call.  On every host whose `GetState`
succeeds, `CreateVote` returns the error "the asset <id> already exists". -/
theorem createVote_duplicate (l : Ledger)
    (id candidate cpr name politicalParty value : GoString)
    (hval : l.world.get id = some value) :
    (∀ h : Host,
        (CreateVote h l id candidate cpr name politicalParty).2 = l ∧
        (CreateVote h l id candidate cpr name politicalParty).2.puts = l.puts ∧
        (CreateVote h l id candidate cpr name politicalParty).2.world = l.world ∧
        (CreateVote h l id candidate cpr name politicalParty).2.world.get id = some value) ∧
      ∀ h : Host, h.getFault id = none →
        CreateVote h l id candidate cpr name politicalParty =
          (some ⟨ascii "the asset " ++ id ++ ascii " already exists"⟩, l) := by
  have hkeep : ∀ h : Host, (CreateVote h l id candidate cpr name politicalParty).2 = l := by
    intro h
    simp only [CreateVote, VoteExists, GetState, hval]
    cases h.getFault id <;> rfl
  refine ⟨fun h => ?_, fun h hget => ?_⟩
  · rw [hkeep h]
    exact ⟨rfl, rfl, rfl, hval⟩
  · simp [CreateVote, VoteExists, GetState, hget, hval, errorfS]

theorem createVote_duplicate_witness :
    (∀ h : Host,
        (CreateVote h ledgerAsset1 (ascii "asset1") [] [] [] []).2 = ledgerAsset1 ∧
        (CreateVote h ledgerAsset1 (ascii "asset1") [] [] [] []).2.puts = ledgerAsset1.puts ∧
        (CreateVote h ledgerAsset1 (ascii "asset1") [] [] [] []).2.world = ledgerAsset1.world ∧
        (CreateVote h ledgerAsset1 (ascii "asset1") [] [] [] []).2.world.get (ascii "asset1") =
          some (voteJSON voteEve)) ∧
      ∀ h : Host, h.getFault (ascii "asset1") = none →
        CreateVote h ledgerAsset1 (ascii "asset1") [] [] [] [] =
          (some ⟨ascii "the asset " ++ ascii "asset1" ++ ascii " already exists"⟩,
            ledgerAsset1) :=
  createVote_duplicate ledgerAsset1 (ascii "asset1") [] [] [] [] (voteJSON voteEve) (by decide)

/-! ## Reads, duplicates and the empty ledger -/

/-- C2. When `id` has no value in the world state and the host's `GetState`
and `PutState` succeed, `CreateVote` returns no error, and `VoteExists(id)` on
the resulting ledger returns `(true, nil)`. -/
theorem createVote_then_exists (h : Host) (l : Ledger)
    (id candidate cpr name politicalParty : GoString)
    (habsent : l.world.get id = none)
    (hget : h.getFault id = none)
    (hput : h.putFault id (voteJSON ⟨candidate, cpr, id, name, politicalParty⟩) = none) :
    (CreateVote h l id candidate cpr name politicalParty).1 = none ∧
      VoteExists h (CreateVote h l id candidate cpr name politicalParty).2 id = (true, none) := by
  have hc : CreateVote h l id candidate cpr name politicalParty =
      (none, { world := l.world.put id (voteJSON ⟨candidate, cpr, id, name, politicalParty⟩),
               puts := l.puts ++ [(id, voteJSON ⟨candidate, cpr, id, name, politicalParty⟩)] }) := by
    simp [CreateVote, VoteExists, GetState, PutState, jsonMarshal, hget, hput, habsent]
  simp [hc, VoteExists, GetState, hget, World.get_put_same]

theorem createVote_then_exists_witness :
    (CreateVote Host.reliable Ledger.empty (ascii "v1") (ascii "blue") (ascii "1") (ascii "Ann")
        (ascii "SF")).1 = none ∧
      VoteExists Host.reliable (CreateVote Host.reliable Ledger.empty (ascii "v1") (ascii "blue")
        (ascii "1") (ascii "Ann") (ascii "SF")).2 (ascii "v1") = (true, none) :=
  createVote_then_exists Host.reliable Ledger.empty (ascii "v1") (ascii "blue") (ascii "1")
    (ascii "Ann") (ascii "SF") (by decide) rfl rfl

/-- C4. When the host's `GetState` succeeds, `VoteExists(id)` returns
`(b, nil)` where `b` is true exactly when the world state holds a value under
`id`; for an id with no value it returns `(false, nil)`. -/
theorem voteExists_iff (h : Host) (l : Ledger) (id : GoString)
    (hget : h.getFault id = none) :
    (∃ b : Bool, VoteExists h l id = (b, none) ∧
        (b = true ↔ ∃ value, l.world.get id = some value)) ∧
      (l.world.get id = none → VoteExists h l id = (false, none)) := by
  have hv : VoteExists h l id = ((l.world.get id).isSome, none) := by
    simp [VoteExists, GetState, hget]
  refine ⟨⟨(l.world.get id).isSome, hv, ?_⟩, ?_⟩
  · exact Option.isSome_iff_exists
  · intro hn
    simp [hv, hn]

theorem voteExists_iff_witness :
    (∃ b : Bool, VoteExists Host.reliable ⟨[(ascii "v1", ascii "x")], []⟩ (ascii "v2") = (b, none) ∧
        (b = true ↔ ∃ value, World.get [(ascii "v1", ascii "x")] (ascii "v2") = some value)) ∧
      (World.get [(ascii "v1", ascii "x")] (ascii "v2") = none →
        VoteExists Host.reliable ⟨[(ascii "v1", ascii "x")], []⟩ (ascii "v2") = (false, none)) :=
  voteExists_iff Host.reliable ⟨[(ascii "v1", ascii "x")], []⟩ (ascii "v2") rfl

/-- C5, as stated, fails: when `GetState` fails with the error "timeout",
`VoteExists` returns another error, with the message
"failed to read from world state: timeout". -/
theorem voteExists_error_changed :
    hostReadFails.getFault (ascii "v1") = some ⟨ascii "timeout"⟩ ∧
      (VoteExists hostReadFails Ledger.empty (ascii "v1")).2 ≠ some ⟨ascii "timeout"⟩ ∧
      (VoteExists hostReadFails Ledger.empty (ascii "v1")).2 =
        some ⟨ascii "failed to read from world state: timeout"⟩ := by
  decide

/-- C5, amended. When the host's `GetState` fails with an error `e`,
`VoteExists(id)` returns `false` together with a new error, whose message is
"failed to read from world state: " followed by the message of `e`; this
error is never `e` itself. -/
theorem voteExists_wraps_error (h : Host) (l : Ledger) (id : GoString) (e : GoError)
    (hfail : h.getFault id = some e) :
    VoteExists h l id =
        (false, some ⟨ascii "failed to read from world state: " ++ e.msg⟩) ∧
      (VoteExists h l id).2 ≠ some e := by
  have hv : VoteExists h l id =
      (false, some ⟨ascii "failed to read from world state: " ++ e.msg⟩) := by
    simp [VoteExists, GetState, hfail, errorfV]
  refine ⟨hv, ?_⟩
  rw [hv]
  intro heq
  have hmsg := congrArg (fun o : Option GoError => (o.map fun x => x.msg.length)) heq
  simp [ascii] at hmsg
  omega

theorem voteExists_wraps_error_witness :
    VoteExists hostReadFails Ledger.empty (ascii "v1") =
        (false, some ⟨ascii "failed to read from world state: " ++
          (GoError.mk (ascii "timeout")).msg⟩) ∧
      (VoteExists hostReadFails Ledger.empty (ascii "v1")).2 ≠ some ⟨ascii "timeout"⟩ :=
  voteExists_wraps_error hostReadFails Ledger.empty (ascii "v1") ⟨ascii "timeout"⟩ rfl

/-- C7, as stated, fails: on the empty ledger, with a host whose
`GetStateByRange` fails with the error "unavailable", `GetAllVotes` returns
that error. -/
theorem getAllVotes_empty_range_error :
    Ledger.empty.world = [] ∧
      (GetAllVotes jsonUnmarshal hostRangeFails Ledger.empty).2 ≠ none ∧
      GetAllVotes jsonUnmarshal hostRangeFails Ledger.empty =
        ([], some ⟨ascii "unavailable"⟩) := by
  decide

/-- C7, amended. On an empty keyspace, when the range scan of the host
succeeds, `GetAllVotes` returns an empty sequence and no error, whatever the
decoder. -/
theorem getAllVotes_empty (dec : GoString → Except GoError Vote) (h : Host) (l : Ledger)
    (hempty : l.world = [])
    (hrange : h.rangeFault = none) :
    GetAllVotes dec h l = ([], none) := by
  simp [GetAllVotes, GetStateByRange, hrange, hempty, scanLoop]

theorem getAllVotes_empty_witness :
    GetAllVotes jsonUnmarshal Host.reliable Ledger.empty = ([], none) :=
  getAllVotes_empty jsonUnmarshal Host.reliable Ledger.empty rfl rfl

/-! ## Key order -/

theorem keyLt_irrefl (a : GoString) : keyLt a a = false := by
  induction a with
  | nil => rfl
  | cons x xs ih => simp [keyLt, ih]

theorem keyLt_trans (a b c : GoString) (hab : keyLt a b = true) (hbc : keyLt b c = true) :
    keyLt a c = true := by
  induction a generalizing b c with
  | nil =>
    cases b with
    | nil => simp [keyLt] at hab
    | cons y ys =>
      cases c with
      | nil => simp [keyLt] at hbc
      | cons z zs => simp [keyLt]
  | cons x xs ih =>
    cases b with
    | nil => simp [keyLt] at hab
    | cons y ys =>
      cases c with
      | nil => simp [keyLt] at hbc
      | cons z zs =>
        simp only [keyLt, Bool.or_eq_true, Bool.and_eq_true, decide_eq_true_eq] at hab hbc ⊢
        rcases hab with hab | ⟨hxy, hab⟩
        · rcases hbc with hbc | ⟨hyz, _⟩
          · left; omega
          · left; omega
        · rcases hbc with hbc | ⟨hyz, hbc⟩
          · left; omega
          · right; exact ⟨by omega, ih ys zs hab hbc⟩

theorem keyLt_total (a b : GoString) (hab : keyLt a b = false) (hne : a ≠ b) :
    keyLt b a = true := by
  induction a generalizing b with
  | nil =>
    cases b with
    | nil => exact absurd rfl hne
    | cons y ys => simp [keyLt] at hab
  | cons x xs ih =>
    cases b with
    | nil => simp [keyLt]
    | cons y ys =>
      simp only [keyLt, Bool.or_eq_false_iff, Bool.and_eq_false_imp, decide_eq_false_iff_not,
        decide_eq_true_eq] at hab
      simp only [keyLt, Bool.or_eq_true, Bool.and_eq_true, decide_eq_true_eq]
      by_cases hxy : x = y
      · subst hxy
        right
        refine ⟨rfl, ih ys (hab.2 rfl) ?_⟩
        intro h
        exact hne (by rw [h])
      · left; omega

theorem keyLt_ne (a b : GoString) (hab : keyLt a b = true) : a ≠ b := by
  intro h
  subst h
  simp [keyLt_irrefl] at hab

/-- In an ascending world state a key below the first key holds no value. -/
theorem World.get_of_lt_all (w : World) (key : GoString)
    (hlt : ∀ p ∈ w, keyLt key p.1 = true) : w.get key = none := by
  induction w with
  | nil => rfl
  | cons p rest ih =>
    obtain ⟨k, v⟩ := p
    have hk : key ≠ k := keyLt_ne _ _ (hlt (k, v) (List.mem_cons_self _ _))
    simp [World.get, hk]
    exact ih fun q hq => hlt q (List.mem_cons_of_mem _ hq)

theorem World.mem_of_get (w : World) (key value : GoString) (h : w.get key = some value) :
    (key, value) ∈ w := by
  induction w with
  | nil => simp [World.get] at h
  | cons p rest ih =>
    obtain ⟨k, v⟩ := p
    simp only [World.get] at h
    split at h
    · next hk =>
      subst hk
      simp at h
      subst h
      exact List.mem_cons_self _ _
    · exact List.mem_cons_of_mem _ (ih h)

theorem World.get_of_mem (w : World) (hw : w.ascending) (key value : GoString)
    (h : (key, value) ∈ w) : w.get key = some value := by
  induction w with
  | nil => simp at h
  | cons p rest ih =>
    obtain ⟨k, v⟩ := p
    unfold World.ascending at hw
    rw [List.pairwise_cons] at hw
    rcases List.mem_cons.1 h with heq | hmem
    · cases heq
      simp [World.get]
    · have hk : key ≠ k := (keyLt_ne _ _ (hw.1 _ hmem)).symm
      simp [World.get, hk]
      exact ih hw.2 hmem

theorem World.mem_put (w : World) (key value : GoString) (p : GoString × GoString)
    (h : p ∈ w.put key value) : p = (key, value) ∨ p ∈ w := by
  induction w with
  | nil => simpa [World.put] using h
  | cons q rest ih =>
    obtain ⟨k, v⟩ := q
    simp only [World.put] at h
    split at h
    · rcases List.mem_cons.1 h with h | h
      · exact Or.inl h
      · exact Or.inr (List.mem_cons_of_mem _ h)
    · split at h
      · rcases List.mem_cons.1 h with h | h
        · exact Or.inl h
        · exact Or.inr h
      · rcases List.mem_cons.1 h with h | h
        · exact Or.inr (h ▸ List.mem_cons_self _ _)
        · rcases ih h with h | h
          · exact Or.inl h
          · exact Or.inr (List.mem_cons_of_mem _ h)

/-- Storing a value keeps the keys strictly ascending. -/
theorem World.ascending_put (w : World) (hw : w.ascending) (key value : GoString) :
    (w.put key value).ascending := by
  induction w with
  | nil => simp [World.put, World.ascending]
  | cons q rest ih =>
    obtain ⟨k, v⟩ := q
    unfold World.ascending at hw ⊢
    rw [List.pairwise_cons] at hw
    simp only [World.put]
    split
    · next hk =>
      subst hk
      rw [List.pairwise_cons]
      exact hw
    · next hk =>
      split
      · next hlt =>
        rw [List.pairwise_cons, List.pairwise_cons]
        refine ⟨?_, hw⟩
        intro p hp
        rcases List.mem_cons.1 hp with hp | hp
        · subst hp; exact hlt
        · exact keyLt_trans _ _ _ hlt (hw.1 p hp)
      · next hnlt =>
        rw [List.pairwise_cons]
        refine ⟨?_, ih hw.2⟩
        intro p hp
        rcases World.mem_put rest key value p hp with hp | hp
        · subst hp
          exact keyLt_total _ _ (by simpa using hnlt) hk
        · exact hw.1 p hp

/-- Two ascending world states that hold the same value under every key are
the same list. -/
theorem World.ext (w1 w2 : World) (h1 : w1.ascending) (h2 : w2.ascending)
    (hget : ∀ key, w1.get key = w2.get key) : w1 = w2 := by
  induction w1 generalizing w2 with
  | nil =>
    cases w2 with
    | nil => rfl
    | cons q r =>
      have := hget q.1
      simp [World.get] at this
  | cons p r1 ih =>
    cases w2 with
    | nil =>
      have := hget p.1
      simp [World.get] at this
    | cons q r2 =>
      obtain ⟨k1, v1⟩ := p
      obtain ⟨k2, v2⟩ := q
      unfold World.ascending at h1 h2
      rw [List.pairwise_cons] at h1 h2
      have hk : k1 = k2 := by
        by_contra hne
        have e1 := hget k1
        have e2 := hget k2
        simp only [World.get, if_true] at e1 e2
        rw [if_neg hne] at e1
        rw [if_neg (Ne.symm hne)] at e2
        have m1 := World.mem_of_get r2 k1 v1 e1.symm
        have m2 := World.mem_of_get r1 k2 v2 e2
        have l1 : keyLt k2 k1 = true := h2.1 _ m1
        have l2 : keyLt k1 k2 = true := h1.1 _ m2
        have := keyLt_trans _ _ _ l1 l2
        simp [keyLt_irrefl] at this
      subst hk
      have hv : v1 = v2 := by
        have e1 := hget k1
        simpa [World.get] using e1
      subst hv
      congr 1
      apply ih r2 h1.2 h2.2
      intro key
      by_cases hkey : key = k1
      · subst hkey
        rw [World.get_of_lt_all r1 key h1.1, World.get_of_lt_all r2 key h2.1]
      · have := hget key
        simpa [World.get, hkey] using this

/-! ## `InitLedger` -/

theorem putAll_get_other (xs : List Vote) (w : World) (key : GoString)
    (hkey : ∀ a ∈ xs, a.ID ≠ key) : (putAll xs w).get key = w.get key := by
  induction xs generalizing w with
  | nil => rfl
  | cons a rest ih =>
    simp only [putAll, List.foldl_cons]
    have := ih (w.put a.ID (voteJSON a)) fun b hb => hkey b (List.mem_cons_of_mem _ hb)
    simp only [putAll] at this
    rw [this]
    exact World.get_put_other _ _ _ _ (Ne.symm (hkey a (List.mem_cons_self _ _)))

theorem putAll_get_mem (xs : List Vote) (w : World) (a : Vote) (ha : a ∈ xs)
    (hnd : (xs.map Vote.ID).Nodup) : (putAll xs w).get a.ID = some (voteJSON a) := by
  induction xs generalizing w with
  | nil => simp at ha
  | cons b rest ih =>
    simp only [List.map_cons, List.nodup_cons] at hnd
    simp only [putAll, List.foldl_cons]
    rcases List.mem_cons.1 ha with hab | hmem
    · subst hab
      have := putAll_get_other rest (w.put a.ID (voteJSON a)) a.ID (by
        intro c hc heq
        exact hnd.1 (heq ▸ List.mem_map_of_mem Vote.ID hc))
      simp only [putAll] at this
      rw [this, World.get_put_same]
    · have := ih (w.put b.ID (voteJSON b)) hmem hnd.2
      simpa only [putAll] using this

theorem putAll_ascending (xs : List Vote) (w : World) (hw : w.ascending) :
    (putAll xs w).ascending := by
  induction xs generalizing w with
  | nil => exact hw
  | cons a rest ih =>
    simp only [putAll, List.foldl_cons]
    exact ih _ (World.ascending_put w hw _ _)

/-- The loop of `InitLedger` when `PutState` succeeds for the records `pre`
and fails for the next one. -/
theorem initLoop_abort (h : Host) (pre post : List Vote) (a : Vote) (l : Ledger) (e : GoError)
    (hok : ∀ x ∈ pre, h.putFault x.ID (voteJSON x) = none)
    (hfail : h.putFault a.ID (voteJSON a) = some e) :
    initLoop h (pre ++ a :: post) l =
      (some ⟨ascii "failed to put to world state. " ++ e.msg⟩,
        ⟨putAll pre l.world, l.puts ++ putCalls (pre ++ [a])⟩) := by
  induction pre generalizing l with
  | nil =>
    simp [initLoop, jsonMarshal, PutState, hfail, errorfV, putAll, putCalls]
  | cons x rest ih =>
    have hx := hok x (List.mem_cons_self _ _)
    rw [List.cons_append]
    simp only [initLoop, jsonMarshal, PutState, hx]
    rw [ih _ fun y hy => hok y (List.mem_cons_of_mem _ hy)]
    simp [putAll, putCalls]

/-- The loop of `InitLedger` when `PutState` succeeds for all records. -/
theorem initLoop_ok (h : Host) (xs : List Vote) (l : Ledger)
    (hok : ∀ x ∈ xs, h.putFault x.ID (voteJSON x) = none) :
    initLoop h xs l = (none, ⟨putAll xs l.world, l.puts ++ putCalls xs⟩) := by
  induction xs generalizing l with
  | nil => simp [initLoop, putAll, putCalls]
  | cons x rest ih =>
    have hx := hok x (List.mem_cons_self _ _)
    simp only [initLoop, jsonMarshal, PutState, hx]
    rw [ih _ fun y hy => hok y (List.mem_cons_of_mem _ hy)]
    simp [putAll, putCalls]

/-- The loop of `InitLedger` returns no error only when every `PutState`
succeeded. -/
theorem initLoop_ok_inv (h : Host) (xs : List Vote) (l : Ledger)
    (hnone : (initLoop h xs l).1 = none) :
    ∀ x ∈ xs, h.putFault x.ID (voteJSON x) = none := by
  induction xs generalizing l with
  | nil => simp
  | cons x rest ih =>
    simp only [initLoop, jsonMarshal, PutState] at hnone
    cases hx : h.putFault x.ID (voteJSON x) with
    | some e => simp [hx] at hnone
    | none =>
      simp only [hx] at hnone
      intro y hy
      rcases List.mem_cons.1 hy with hy | hy
      · subst hy; exact hx
      · exact ih _ hnone y hy

/-- C8. `InitLedger` aborts on the first storage error without rollback: for
`k` from 1 to 6, when `PutState` succeeds for the first `k-1` records of
`assets` and fails with `e` for the `k`-th, `InitLedger` returns the error
"failed to put to world state. " followed by the message of `e`; each of the
first `k-1` records is in the world state, under its ID, as its serialization;
the `PutState` calls issued are those for the first `k` records, none for a
later one; and the key of every later record holds what it held before. -/
theorem initLedger_abort (h : Host) (l : Ledger) (k : Nat) (e : GoError) (a : Vote)
    (hk1 : 1 ≤ k) (hk6 : k ≤ 6)
    (hok : ∀ x ∈ assets.take (k - 1), h.putFault x.ID (voteJSON x) = none)
    (hkth : assets[k - 1]? = some a)
    (hfail : h.putFault a.ID (voteJSON a) = some e) :
    (InitLedger h l).1 = some ⟨ascii "failed to put to world state. " ++ e.msg⟩ ∧
      (∀ x ∈ assets.take (k - 1), (InitLedger h l).2.world.get x.ID = some (voteJSON x)) ∧
      (InitLedger h l).2.puts = l.puts ++ putCalls (assets.take k) ∧
      (∀ x ∈ assets.drop k, (InitLedger h l).2.world.get x.ID = l.world.get x.ID) := by
  have hnd : (assets.map Vote.ID).Nodup := by decide
  have hsplit : assets = assets.take (k - 1) ++ a :: assets.drop k := by
    have h1 : assets.drop (k - 1) = a :: assets.drop k := by
      have hlen : k - 1 < assets.length := by
        have : assets.length = 6 := rfl
        omega
      rw [List.drop_eq_getElem_cons hlen]
      have hget := List.getElem?_eq_getElem hlen
      rw [hkth] at hget
      have hk : k - 1 + 1 = k := by omega
      rw [hk]
      congr 1
      exact (Option.some.inj hget).symm
    conv_lhs => rw [← List.take_append_drop (k - 1) assets, h1]
  have htake : assets.take k = assets.take (k - 1) ++ [a] := by
    have h2 : (assets.take (k - 1) ++ a :: assets.drop k).take k = assets.take (k - 1) ++ [a] := by
      have hlen : (assets.take (k - 1)).length = k - 1 := by
        have : assets.length = 6 := rfl
        rw [List.length_take]; omega
      rw [List.take_append_eq_append_take, hlen]
      have hk : k - (k - 1) = 1 := by omega
      rw [hk, List.take_of_length_le (by omega)]
      simp
    rw [← hsplit] at h2
    exact h2
  have hrun : InitLedger h l = (some ⟨ascii "failed to put to world state. " ++ e.msg⟩,
      ⟨putAll (assets.take (k - 1)) l.world, l.puts ++ putCalls (assets.take k)⟩) := by
    unfold InitLedger
    rw [htake]
    conv_lhs => rw [hsplit]
    exact initLoop_abort h _ _ a l e hok hfail
  have hnd2 : ((assets.take (k - 1)).map Vote.ID ++ a.ID :: (assets.drop k).map Vote.ID).Nodup := by
    have := hnd
    rw [hsplit] at this
    simpa using this
  refine ⟨by rw [hrun], ?_, by rw [hrun], ?_⟩
  · intro x hx
    rw [hrun]
    exact putAll_get_mem _ _ x hx (List.Nodup.of_append_left hnd2)
  · intro x hx
    rw [hrun]
    apply putAll_get_other
    intro y hy heq
    have hdis := (List.nodup_append.1 hnd2).2.2
    exact hdis (List.mem_map_of_mem Vote.ID hy)
      (List.mem_cons_of_mem _ (heq ▸ List.mem_map_of_mem Vote.ID hx))

/-! ## Stored values -/

theorem initLedger_abort_witness :
    (InitLedger hostPutFails Ledger.empty).1 =
        some ⟨ascii "failed to put to world state. " ++ (GoError.mk (ascii "disk full")).msg⟩ ∧
      (∀ x ∈ assets.take (3 - 1),
        (InitLedger hostPutFails Ledger.empty).2.world.get x.ID = some (voteJSON x)) ∧
      (InitLedger hostPutFails Ledger.empty).2.puts =
        Ledger.empty.puts ++ putCalls (assets.take 3) ∧
      (∀ x ∈ assets.drop 3,
        (InitLedger hostPutFails Ledger.empty).2.world.get x.ID = Ledger.empty.world.get x.ID) :=
  initLedger_abort hostPutFails Ledger.empty 3 ⟨ascii "disk full"⟩
    { ID := ascii "asset3", Candidate := ascii "green", CPR := ascii "202000-1821",
      Name := ascii "Jin Soo", PoliticalParty := ascii "Liberal alliance" }
    (by decide) (by decide) (by decide) (by decide) (by decide)

theorem hexVal_hexDigit (n : Nat) (hn : n < 16) : hexVal (hexDigit n) = some n := by
  interval_cases n <;> rfl

theorem decodeRune_ascii (b : Nat) (rest : GoString) (hb : b < 0x80) :
    decodeRune (b :: rest) = (b, 1) := by
  simp [decodeRune, hb]

/-- The outcomes of `decodeRune` on a non-empty input: an ASCII byte, an
invalid first byte, or a valid rune of two, three or four bytes. -/
theorem decodeRune_cases (b : Nat) (rest : GoString) :
    (b < 0x80 ∧ decodeRune (b :: rest) = (b, 1)) ∨
    (0x80 ≤ b ∧ decodeRune (b :: rest) = (runeError, 1)) ∨
    (∃ b1 r, rest = b1 :: r ∧ 0xC2 ≤ b ∧ b ≤ 0xDF ∧ 0x80 ≤ b1 ∧ b1 ≤ 0xBF ∧
      decodeRune (b :: rest) = ((b % 32) * 64 + b1 % 64, 2)) ∨
    (∃ b1 b2 r, rest = b1 :: b2 :: r ∧ 0xE0 ≤ b ∧ b ≤ 0xEF ∧ 0x80 ≤ b1 ∧ b1 ≤ 0xBF ∧
      (b = 0xE0 → 0xA0 ≤ b1) ∧ (b = 0xED → b1 ≤ 0x9F) ∧ 0x80 ≤ b2 ∧ b2 ≤ 0xBF ∧
      decodeRune (b :: rest) = ((b % 16) * 4096 + (b1 % 64) * 64 + b2 % 64, 3)) ∨
    (∃ b1 b2 b3 r, rest = b1 :: b2 :: b3 :: r ∧ 0xF0 ≤ b ∧ b ≤ 0xF4 ∧ 0x80 ≤ b1 ∧ b1 ≤ 0xBF ∧
      (b = 0xF0 → 0x90 ≤ b1) ∧ (b = 0xF4 → b1 ≤ 0x8F) ∧ 0x80 ≤ b2 ∧ b2 ≤ 0xBF ∧
      0x80 ≤ b3 ∧ b3 ≤ 0xBF ∧
      decodeRune (b :: rest) =
        ((b % 8) * 262144 + (b1 % 64) * 4096 + (b2 % 64) * 64 + b3 % 64, 4)) := by
  by_cases h1 : b < 0x80
  · exact Or.inl ⟨h1, decodeRune_ascii b rest h1⟩
  · right
    by_cases h2 : 0xC2 ≤ b ∧ b ≤ 0xDF
    · rcases rest with _ | ⟨b1, r⟩
      · left; exact ⟨by omega, by simp [decodeRune, h1, h2]⟩
      · by_cases h5 : isCont b1 = true
        · right; left
          refine ⟨b1, r, rfl, h2.1, h2.2, ?_, ?_, by simp [decodeRune, h1, h2, h5]⟩ <;>
            (simp [isCont] at h5; omega)
        · left; exact ⟨by omega, by simp [decodeRune, h1, h2, h5]⟩
    · by_cases h3 : 0xE0 ≤ b ∧ b ≤ 0xEF
      · rcases rest with _ | ⟨b1, _ | ⟨b2, r⟩⟩
        · left; exact ⟨by omega, by simp [decodeRune, h1, h2, h3]⟩
        · left; exact ⟨by omega, by simp [decodeRune, h1, h2, h3]⟩
        · by_cases h5 : (if b = 0xE0 then 0xA0 else 0x80) ≤ b1 ∧
              b1 ≤ (if b = 0xED then 0x9F else 0xBF) ∧ isCont b2 = true
          · right; right; left
            have h6 : decodeRune (b :: b1 :: b2 :: r) =
                ((b % 16) * 4096 + (b1 % 64) * 64 + b2 % 64, 3) := by
              simp only [decodeRune, if_neg h1, if_neg h2, if_pos h3, if_pos h5]
            obtain ⟨h7, h8, h9⟩ := h5
            simp only [isCont, Bool.and_eq_true, decide_eq_true_eq] at h9
            refine ⟨b1, b2, r, rfl, h3.1, h3.2, ?_, ?_, ?_, ?_, h9.1, h9.2, h6⟩
            · split_ifs at h7 <;> omega
            · split_ifs at h8 <;> omega
            · intro hb; rw [if_pos hb] at h7; exact h7
            · intro hb; rw [if_pos hb] at h8; exact h8
          · left
            refine ⟨by omega, ?_⟩
            simp only [decodeRune, if_neg h1, if_neg h2, if_pos h3, if_neg h5]
      · by_cases h4 : 0xF0 ≤ b ∧ b ≤ 0xF4
        · rcases rest with _ | ⟨b1, _ | ⟨b2, _ | ⟨b3, r⟩⟩⟩
          · left; exact ⟨by omega, by simp [decodeRune, h1, h2, h3, h4]⟩
          · left; exact ⟨by omega, by simp [decodeRune, h1, h2, h3, h4]⟩
          · left; exact ⟨by omega, by simp [decodeRune, h1, h2, h3, h4]⟩
          · by_cases h5 : (if b = 0xF0 then 0x90 else 0x80) ≤ b1 ∧
                b1 ≤ (if b = 0xF4 then 0x8F else 0xBF) ∧ isCont b2 = true ∧ isCont b3 = true
            · right; right; right
              have h6 : decodeRune (b :: b1 :: b2 :: b3 :: r) =
                  ((b % 8) * 262144 + (b1 % 64) * 4096 + (b2 % 64) * 64 + b3 % 64, 4) := by
                simp only [decodeRune, if_neg h1, if_neg h2, if_neg h3, if_pos h4, if_pos h5]
              obtain ⟨h7, h8, h9, h10⟩ := h5
              simp only [isCont, Bool.and_eq_true, decide_eq_true_eq] at h9 h10
              refine ⟨b1, b2, b3, r, rfl, h4.1, h4.2, ?_, ?_, ?_, ?_, h9.1, h9.2, h10.1, h10.2,
                h6⟩
              · split_ifs at h7 <;> omega
              · split_ifs at h8 <;> omega
              · intro hb; rw [if_pos hb] at h7; exact h7
              · intro hb; rw [if_pos hb] at h8; exact h8
            · left
              refine ⟨by omega, ?_⟩
              simp only [decodeRune, if_neg h1, if_neg h2, if_neg h3, if_pos h4, if_neg h5]
        · left
          refine ⟨by omega, ?_⟩
          simp only [decodeRune, if_neg h1, if_neg h2, if_neg h3, if_neg h4]

theorem decodeRune_width (b : Nat) (rest : GoString) :
    1 ≤ (decodeRune (b :: rest)).2 ∧ (decodeRune (b :: rest)).2 ≤ (b :: rest).length := by
  rcases decodeRune_cases b rest with ⟨_, h⟩ | ⟨_, h⟩ | ⟨b1, r, hr, _, _, _, _, h⟩ |
    ⟨b1, b2, r, hr, _, _, _, _, _, _, _, _, h⟩ |
    ⟨b1, b2, b3, r, hr, _, _, _, _, _, _, _, _, _, _, h⟩ <;>
  · rw [h]
    try subst hr
    simp

/-- One step of the three loops on an ASCII byte that is copied. -/
theorem step_safe (n f b : Nat) (rest tail : GoString) (hb : b < 0x80) (hs : htmlSafe b = true) :
    stringLoop (n + 1) (b :: rest) = b :: stringLoop n rest ∧
    coerceLoop (n + 1) (b :: rest) = b :: coerceLoop n rest ∧
    unquoteLoop (f + 1) (b :: tail) = (unquoteLoop f tail).map fun p => (b :: p.1, p.2) := by
  have hd := decodeRune_ascii b rest hb
  simp only [htmlSafe, Bool.and_eq_true, decide_eq_true_eq, Bool.not_eq_true',
    decide_eq_false_iff_not] at hs
  obtain ⟨⟨⟨⟨⟨⟨h20, _⟩, h22⟩, h5c⟩, _⟩, _⟩, _⟩ := hs
  refine ⟨?_, ?_, ?_⟩
  · simp [stringLoop, hb, htmlSafe, *]
  · simp [coerceLoop, hd, runeError]
    omega
  · have h1 : ¬ b < 0x20 := by omega
    simp only [unquoteLoop, if_neg h22, if_neg h5c, if_neg h1, if_pos hb]

/-! ## One step of the encoder and of the decoder -/

/-- The decoder on the escape of a code point below U+D800 written with four
hexadecimal digits. -/
theorem unquoteLoop_u4 (f x1 x2 x3 x4 : Nat) (tail : GoString)
    (h1 : x1 < 16) (h2 : x2 < 16) (h3 : x3 < 16) (h4 : x4 < 16)
    (hr : ¬(0xD800 ≤ ((x1 * 16 + x2) * 16 + x3) * 16 + x4 ∧
      ((x1 * 16 + x2) * 16 + x3) * 16 + x4 < 0xE000)) :
    unquoteLoop (f + 1)
        (0x5C :: 0x75 :: hexDigit x1 :: hexDigit x2 :: hexDigit x3 :: hexDigit x4 :: tail) =
      (unquoteLoop f tail).map fun p =>
        (encodeRune (((x1 * 16 + x2) * 16 + x3) * 16 + x4) ++ p.1, p.2) := by
  have e : unquoteLoop (f + 1)
        (0x5C :: 0x75 :: hexDigit x1 :: hexDigit x2 :: hexDigit x3 :: hexDigit x4 :: tail) =
      match hexVal (hexDigit x1), hexVal (hexDigit x2), hexVal (hexDigit x3),
          hexVal (hexDigit x4) with
      | some x1, some x2, some x3, some x4 =>
        if 0xD800 ≤ ((x1 * 16 + x2) * 16 + x3) * 16 + x4 ∧
            ((x1 * 16 + x2) * 16 + x3) * 16 + x4 < 0xE000 then none
        else (unquoteLoop f tail).map fun p =>
          (encodeRune (((x1 * 16 + x2) * 16 + x3) * 16 + x4) ++ p.1, p.2)
      | _, _, _, _ => none := by
    simp [unquoteLoop]
  rw [e, hexVal_hexDigit x1 h1, hexVal_hexDigit x2 h2, hexVal_hexDigit x3 h3,
    hexVal_hexDigit x4 h4]
  simp only [if_neg hr]

/-- One step of the three loops on an ASCII byte that is escaped. -/
theorem step_escape (n f b : Nat) (rest tail : GoString) (hb : b < 0x80)
    (hs : htmlSafe b = false) :
    stringLoop (n + 1) (b :: rest) = escapeByte b ++ stringLoop n rest ∧
    coerceLoop (n + 1) (b :: rest) = b :: coerceLoop n rest ∧
    unquoteLoop (f + 1) (escapeByte b ++ tail) =
      (unquoteLoop f tail).map fun p => (b :: p.1, p.2) := by
  have hd := decodeRune_ascii b rest hb
  refine ⟨?_, ?_, ?_⟩
  · simp [stringLoop, hb, hs]
  · simp [coerceLoop, hd, runeError]
    omega
  · unfold escapeByte
    split_ifs with h1 h2 h3 h4 h5 h6
    · rcases h1 with h1 | h1 <;> subst h1 <;> simp [unquoteLoop, unescape]
    · subst h2; simp [unquoteLoop, unescape]
    · subst h3; simp [unquoteLoop, unescape]
    · subst h4; simp [unquoteLoop, unescape]
    · subst h5; simp [unquoteLoop, unescape]
    · subst h6; simp [unquoteLoop, unescape]
    · have hu := unquoteLoop_u4 f 0 0 (b / 16) (b % 16) tail (by omega) (by omega) (by omega)
        (by omega) (by omega)
      have hv : ((0 * 16 + 0) * 16 + b / 16) * 16 + b % 16 = b := by omega
      rw [hv] at hu
      have he : encodeRune b = [b] := by simp [encodeRune, hb]
      rw [he] at hu
      simpa [hexDigit] using hu

/-- One step of the three loops on a byte that does not start a valid rune. -/
theorem step_invalid (n f b : Nat) (rest tail : GoString) (hb : 0x80 ≤ b)
    (hd : decodeRune (b :: rest) = (runeError, 1)) :
    stringLoop (n + 1) (b :: rest) =
      [0x5C, 0x75, 0x66, 0x66, 0x66, 0x64] ++ stringLoop n rest ∧
    coerceLoop (n + 1) (b :: rest) = [0xEF, 0xBF, 0xBD] ++ coerceLoop n rest ∧
    unquoteLoop (f + 1) ([0x5C, 0x75, 0x66, 0x66, 0x66, 0x64] ++ tail) =
      (unquoteLoop f tail).map fun p => ([0xEF, 0xBF, 0xBD] ++ p.1, p.2) := by
  have hnb : ¬ b < 0x80 := by omega
  refine ⟨?_, ?_, ?_⟩
  · simp [stringLoop, hnb, hd]
  · simp [coerceLoop, hd]
  · have hu := unquoteLoop_u4 f 15 15 15 13 tail (by omega) (by omega) (by omega) (by omega)
      (by omega)
    have he : encodeRune (((15 * 16 + 15) * 16 + 15) * 16 + 13) = [0xEF, 0xBF, 0xBD] := by
      decide
    rw [he] at hu
    simpa [hexDigit] using hu

/-- The decoder on a byte from `0x80` up: it reads one rune. -/
theorem unquoteLoop_high (f b : Nat) (rest : GoString) (hb : 0x80 ≤ b) :
    unquoteLoop (f + 1) (b :: rest) =
      if (decodeRune (b :: rest)).1 = runeError ∧ (decodeRune (b :: rest)).2 = 1 then
        (unquoteLoop f rest).map fun p => (encodeRune runeError ++ p.1, p.2)
      else
        (unquoteLoop f (rest.drop ((decodeRune (b :: rest)).2 - 1))).map fun p =>
          ((b :: rest).take (decodeRune (b :: rest)).2 ++ p.1, p.2) := by
  have h1 : ¬ b = 0x22 := by omega
  have h2 : ¬ b = 0x5C := by omega
  have h3 : ¬ b < 0x20 := by omega
  have h4 : ¬ b < 0x80 := by omega
  simp only [unquoteLoop, if_neg h1, if_neg h2, if_neg h3, if_neg h4]

/-- One step of the three loops on a valid rune of two to four bytes: the
encoder writes some bytes `emit`, from which the decoder reads the bytes of
the rune. -/
theorem step_rune (n f b : Nat) (rest tail : GoString) (hb : 0x80 ≤ b)
    (hv : decodeRune (b :: rest) ≠ (runeError, 1)) :
    ∃ emit : GoString, emit ≠ [] ∧
      stringLoop (n + 1) (b :: rest) =
        emit ++ stringLoop n (rest.drop ((decodeRune (b :: rest)).2 - 1)) ∧
      coerceLoop (n + 1) (b :: rest) =
        (b :: rest).take (decodeRune (b :: rest)).2 ++
          coerceLoop n (rest.drop ((decodeRune (b :: rest)).2 - 1)) ∧
      unquoteLoop (f + 1) (emit ++ tail) =
        (unquoteLoop f tail).map fun p =>
          ((b :: rest).take (decodeRune (b :: rest)).2 ++ p.1, p.2) := by
  have hnb : ¬ b < 0x80 := by omega
  rcases decodeRune_cases b rest with ⟨h, _⟩ | ⟨_, h⟩ | ⟨b1, r, hr, hb1, hb2, hc1, hc2, hd⟩ |
    ⟨b1, b2, r, hr, hb1, hb2, hc1, hc2, hlo, hhi, hc3, hc4, hd⟩ |
    ⟨b1, b2, b3, r, hr, hb1, hb2, hc1, hc2, hlo, hhi, hc3, hc4, hc5, hc6, hd⟩
  · omega
  · exact absurd h hv
  · subst hr
    have hd2 : decodeRune (b :: b1 :: tail) = ((b % 32) * 64 + b1 % 64, 2) := by
      have hcont : isCont b1 = true := by simp [isCont]; omega
      have hr2 : 0xC2 ≤ b ∧ b ≤ 0xDF := ⟨hb1, hb2⟩
      simp only [decodeRune, if_neg hnb, if_pos hr2, if_pos hcont]
    have hne1 : ¬((b % 32) * 64 + b1 % 64 = runeError ∧ (2 : Nat) = 1) := by omega
    have hne2 : ¬((b % 32) * 64 + b1 % 64 = 0x2028 ∨ (b % 32) * 64 + b1 % 64 = 0x2029) := by
      omega
    refine ⟨[b, b1], by simp, ?_, ?_, ?_⟩
    · simp [stringLoop, hnb, hd, hne1, hne2]
    · simp [coerceLoop, hd, hne1]
    · rw [hd]
      show unquoteLoop (f + 1) (b :: b1 :: tail) = _
      rw [unquoteLoop_high f b _ hb, hd2, if_neg hne1]
      simp
  · subst hr
    have hd2 : decodeRune (b :: b1 :: b2 :: tail) =
        ((b % 16) * 4096 + (b1 % 64) * 64 + b2 % 64, 3) := by
      have hcont : isCont b2 = true := by simp [isCont]; omega
      have hr3 : 0xE0 ≤ b ∧ b ≤ 0xEF := ⟨hb1, hb2⟩
      have hr2 : ¬(0xC2 ≤ b ∧ b ≤ 0xDF) := by omega
      have hcond : (if b = 0xE0 then 0xA0 else 0x80) ≤ b1 ∧
          b1 ≤ (if b = 0xED then 0x9F else 0xBF) ∧ isCont b2 = true := by
        refine ⟨?_, ?_, hcont⟩
        · split_ifs with hh
          · exact hlo hh
          · exact hc1
        · split_ifs with hh
          · exact hhi hh
          · exact hc2
      simp only [decodeRune, if_neg hnb, if_neg hr2, if_pos hr3, if_pos hcond]
    have hne1 : ¬((b % 16) * 4096 + (b1 % 64) * 64 + b2 % 64 = runeError ∧ (3 : Nat) = 1) := by
      omega
    by_cases hls : (b % 16) * 4096 + (b1 % 64) * 64 + b2 % 64 = 0x2028 ∨
        (b % 16) * 4096 + (b1 % 64) * 64 + b2 % 64 = 0x2029
    · refine ⟨[0x5C, 0x75, 0x32, 0x30, 0x32,
        hexDigit (((b % 16) * 4096 + (b1 % 64) * 64 + b2 % 64) % 16)], by simp, ?_, ?_, ?_⟩
      · simp [stringLoop, hnb, hd, hne1, hls]
      · simp [coerceLoop, hd, hne1]
      · rw [hd]
        have hu := unquoteLoop_u4 f 2 0 2 (((b % 16) * 4096 + (b1 % 64) * 64 + b2 % 64) % 16)
          tail (by omega) (by omega) (by omega) (by omega) (by omega)
        have hval : ((2 * 16 + 0) * 16 + 2) * 16 +
            ((b % 16) * 4096 + (b1 % 64) * 64 + b2 % 64) % 16 =
            (b % 16) * 4096 + (b1 % 64) * 64 + b2 % 64 := by omega
        rw [hval] at hu
        have hbytes : encodeRune ((b % 16) * 4096 + (b1 % 64) * 64 + b2 % 64) = [b, b1, b2] := by
          rcases hls with hls | hls
          · have e0 : b = 0xE2 := by omega
            have e1 : b1 = 0x80 := by omega
            have e2 : b2 = 0xA8 := by omega
            subst e0 e1 e2
            decide
          · have e0 : b = 0xE2 := by omega
            have e1 : b1 = 0x80 := by omega
            have e2 : b2 = 0xA9 := by omega
            subst e0 e1 e2
            decide
        rw [hbytes] at hu
        simpa [hexDigit] using hu
    · refine ⟨[b, b1, b2], by simp, ?_, ?_, ?_⟩
      · simp [stringLoop, hnb, hd, hne1, hls]
      · simp [coerceLoop, hd, hne1]
      · rw [hd]
        show unquoteLoop (f + 1) (b :: b1 :: b2 :: tail) = _
        rw [unquoteLoop_high f b _ hb, hd2, if_neg hne1]
        simp
  · subst hr
    have hd2 : decodeRune (b :: b1 :: b2 :: b3 :: tail) =
        ((b % 8) * 262144 + (b1 % 64) * 4096 + (b2 % 64) * 64 + b3 % 64, 4) := by
      have hcont2 : isCont b2 = true := by simp [isCont]; omega
      have hcont3 : isCont b3 = true := by simp [isCont]; omega
      have hr4 : 0xF0 ≤ b ∧ b ≤ 0xF4 := ⟨hb1, hb2⟩
      have hr2 : ¬(0xC2 ≤ b ∧ b ≤ 0xDF) := by omega
      have hr3 : ¬(0xE0 ≤ b ∧ b ≤ 0xEF) := by omega
      have hcond : (if b = 0xF0 then 0x90 else 0x80) ≤ b1 ∧
          b1 ≤ (if b = 0xF4 then 0x8F else 0xBF) ∧ isCont b2 = true ∧ isCont b3 = true := by
        refine ⟨?_, ?_, hcont2, hcont3⟩
        · split_ifs with hh
          · exact hlo hh
          · exact hc1
        · split_ifs with hh
          · exact hhi hh
          · exact hc2
      simp only [decodeRune, if_neg hnb, if_neg hr2, if_neg hr3, if_pos hr4, if_pos hcond]
    have hne1 : ¬((b % 8) * 262144 + (b1 % 64) * 4096 + (b2 % 64) * 64 + b3 % 64 = runeError ∧
        (4 : Nat) = 1) := by omega
    have hne2 : ¬((b % 8) * 262144 + (b1 % 64) * 4096 + (b2 % 64) * 64 + b3 % 64 = 0x2028 ∨
        (b % 8) * 262144 + (b1 % 64) * 4096 + (b2 % 64) * 64 + b3 % 64 = 0x2029) := by
      have : 0x90 ≤ b1 ∨ 0xF1 ≤ b := by
        by_cases hh : b = 0xF0
        · exact Or.inl (hlo hh)
        · exact Or.inr (by omega)
      omega
    refine ⟨[b, b1, b2, b3], by simp, ?_, ?_, ?_⟩
    · simp [stringLoop, hnb, hd, hne1, hne2]
    · simp [coerceLoop, hd, hne1]
    · rw [hd]
      show unquoteLoop (f + 1) (b :: b1 :: b2 :: b3 :: tail) = _
      rw [unquoteLoop_high f b _ hb, hd2, if_neg hne1]
      simp

/-! ## The decoder reads back what `json.Marshal` writes -/

/-- The decoder reads back what the encoder wrote for a string: the string
coerced to valid UTF-8, and the input after the closing quote. -/
theorem unquoteLoop_stringLoop (n : Nat) :
    ∀ (s : GoString) (f : Nat) (tail : GoString), s.length ≤ n →
      (stringLoop n s).length + 1 ≤ f →
      unquoteLoop f (stringLoop n s ++ 0x22 :: tail) = some (coerceLoop n s, tail) := by
  induction n with
  | zero =>
    intro s f tail _ hf
    cases f with
    | zero => omega
    | succ f => simp [stringLoop, coerceLoop, unquoteLoop]
  | succ n ih =>
    intro s f tail hs hf
    cases f with
    | zero => omega
    | succ f =>
      cases s with
      | nil => simp [stringLoop, coerceLoop, unquoteLoop]
      | cons b rest =>
        have hrest : rest.length ≤ n := by simpa using hs
        by_cases hb : b < 0x80
        · cases hsafe : htmlSafe b with
          | true =>
            obtain ⟨e1, e2, e3⟩ := step_safe n f b rest (stringLoop n rest ++ 0x22 :: tail) hb hsafe
            rw [e1] at hf
            rw [e1, e2, List.cons_append, e3, ih rest f tail hrest (by simpa using hf)]
            rfl
          | false =>
            obtain ⟨e1, e2, e3⟩ :=
              step_escape n f b rest (stringLoop n rest ++ 0x22 :: tail) hb hsafe
            rw [e1] at hf
            have hlen : 1 ≤ (escapeByte b).length := by
              unfold escapeByte; split_ifs <;> simp
            rw [e1, e2, List.append_assoc, e3, ih rest f tail hrest (by
              rw [List.length_append] at hf; omega)]
            rfl
        · have hb2 : 0x80 ≤ b := by omega
          by_cases hd : decodeRune (b :: rest) = (runeError, 1)
          · obtain ⟨e1, e2, e3⟩ :=
              step_invalid n f b rest (stringLoop n rest ++ 0x22 :: tail) hb2 hd
            rw [e1] at hf
            rw [e1, e2, List.append_assoc, e3, ih rest f tail hrest (by
              rw [List.length_append] at hf; simp at hf; omega)]
            rfl
          · obtain ⟨emit, hne, e1, e2, e3⟩ := step_rune n f b rest
              (stringLoop n (rest.drop ((decodeRune (b :: rest)).2 - 1)) ++ 0x22 :: tail) hb2 hd
            rw [e1] at hf
            have hlen : 1 ≤ emit.length := by
              cases emit with
              | nil => exact absurd rfl hne
              | cons x xs => simp
            have hdrop : (rest.drop ((decodeRune (b :: rest)).2 - 1)).length ≤ n := by
              rw [List.length_drop]; omega
            rw [e1, e2, List.append_assoc, e3, ih _ f tail hdrop (by
              rw [List.length_append] at hf; omega)]
            rfl

/-- A string is read back from its JSON literal coerced to valid UTF-8. -/
theorem unquoteLoop_jsonString (s tail : GoString) (f : Nat)
    (hf : (stringLoop s.length s ++ 0x22 :: tail).length ≤ f) :
    unquoteLoop f (stringLoop s.length s ++ 0x22 :: tail) = some (coerceUTF8 s, tail) := by
  apply unquoteLoop_stringLoop s.length s f tail (le_refl _)
  rw [List.length_append] at hf
  simp at hf
  omega

theorem stripLit_append (lit s : GoString) : stripLit lit (lit ++ s) = some s := by
  induction lit with
  | nil => cases s <;> rfl
  | cons a as ih => simp [stripLit, ih]

theorem readField_jsonField (name : String) (value tail : GoString) :
    readField name (jsonField name value ++ tail) = some (coerceUTF8 value, tail) := by
  have e : jsonField name value ++ tail =
      (0x22 :: (ascii name ++ [0x22, 0x3A, 0x22])) ++
        (stringLoop value.length value ++ 0x22 :: tail) := by
    simp [jsonField, jsonString]
  rw [e]
  unfold readField
  rw [stripLit_append]
  exact unquoteLoop_jsonString value tail _ (le_refl _)

/-- The decoder `jsonUnmarshal` reads back every object that `json.Marshal`
writes for a record, as the record coerced to valid UTF-8. -/
theorem jsonUnmarshal_voteJSON : DecodesMarshal jsonUnmarshal := by
  intro v
  have e0 : stripLit [0x7B] (voteJSON v) = some
      (jsonField "Candidate" v.Candidate ++ 0x2C ::
        (jsonField "CPR" v.CPR ++ 0x2C ::
        (jsonField "ID" v.ID ++ 0x2C ::
        (jsonField "Name" v.Name ++ 0x2C ::
        (jsonField "PoliticalParty" v.PoliticalParty ++ [0x7D]))))) := by
    simp [voteJSON, stripLit]
  have hs : ∀ s : GoString, stripLit [0x2C] (0x2C :: s) = some s := by
    intro s; simp [stripLit]
  unfold jsonUnmarshal
  rw [e0]
  simp only [readField_jsonField, hs, Option.some_bind]
  simp [Vote.coerce]

/-! ## Step budgets -/

/-- The step budget `s.length` of the encoder loop is enough: a larger budget
gives the same bytes. -/
theorem stringLoop_fuel (n : Nat) :
    ∀ (m : Nat) (s : GoString), s.length ≤ n → n ≤ m → stringLoop m s = stringLoop n s := by
  induction n with
  | zero =>
    intro m s hs _
    cases s with
    | nil => cases m <;> rfl
    | cons b rest => simp at hs
  | succ n ih =>
    intro m s hs hm
    cases m with
    | zero => omega
    | succ m =>
      cases s with
      | nil => rfl
      | cons b rest =>
        have hrest : rest.length ≤ n := by simpa using hs
        have hdrop : ∀ k, (rest.drop k).length ≤ n := by
          intro k; rw [List.length_drop]; omega
        simp only [stringLoop, ih m rest hrest (by omega), ih m _ (hdrop _) (by omega)]

/-- The step budget `s.length` of the coercion is enough. -/
theorem coerceLoop_fuel (n : Nat) :
    ∀ (m : Nat) (s : GoString), s.length ≤ n → n ≤ m → coerceLoop m s = coerceLoop n s := by
  induction n with
  | zero =>
    intro m s hs _
    cases s with
    | nil => cases m <;> rfl
    | cons b rest => simp at hs
  | succ n ih =>
    intro m s hs hm
    cases m with
    | zero => omega
    | succ m =>
      cases s with
      | nil => rfl
      | cons b rest =>
        have hrest : rest.length ≤ n := by simpa using hs
        have hdrop : ∀ k, (rest.drop k).length ≤ n := by
          intro k; rw [List.length_drop]; omega
        simp only [coerceLoop, ih m rest hrest (by omega), ih m _ (hdrop _) (by omega)]

/-- The step budget `s.length` of the validity check is enough. -/
theorem validLoop_fuel (n : Nat) :
    ∀ (m : Nat) (s : GoString), s.length ≤ n → n ≤ m → validLoop m s = validLoop n s := by
  induction n with
  | zero =>
    intro m s hs _
    cases s with
    | nil => cases m <;> rfl
    | cons b rest => simp at hs
  | succ n ih =>
    intro m s hs hm
    cases m with
    | zero => omega
    | succ m =>
      cases s with
      | nil => rfl
      | cons b rest =>
        have hdrop : ∀ k, (rest.drop k).length ≤ n := by
          intro k; rw [List.length_drop]; simp at hs; omega
        simp only [validLoop, ih m _ (hdrop _) (by omega)]

/-! ## Listing -/

theorem coerceLoop_valid (n : Nat) :
    ∀ s : GoString, s.length ≤ n → validLoop n s = true → coerceLoop n s = s := by
  induction n with
  | zero =>
    intro s hs _
    cases s with
    | nil => rfl
    | cons b rest => simp at hs
  | succ n ih =>
    intro s hs hv
    cases s with
    | nil => rfl
    | cons b rest =>
      have hw := decodeRune_width b rest
      simp only [validLoop] at hv
      split_ifs at hv with hinv
      simp only [coerceLoop, if_neg hinv]
      have hlen : (rest.drop ((decodeRune (b :: rest)).2 - 1)).length ≤ n := by
        rw [List.length_drop]
        simp at hs
        omega
      rw [ih _ hlen hv]
      obtain ⟨k, hk⟩ : ∃ k, (decodeRune (b :: rest)).2 = k + 1 := ⟨_, (Nat.sub_add_cancel hw.1).symm⟩
      rw [hk]
      simp

/-- A valid UTF-8 string is unchanged by the coercion. -/
theorem coerceUTF8_valid (s : GoString) (hv : utf8Valid s = true) : coerceUTF8 s = s :=
  coerceLoop_valid s.length s (le_refl _) hv

theorem Vote.coerce_valid (v : Vote) (hv : v.valid = true) : v.coerce = v := by
  simp only [Vote.valid, Bool.and_eq_true] at hv
  obtain ⟨⟨⟨⟨h1, h2⟩, h3⟩, h4⟩, h5⟩ := hv
  simp [Vote.coerce, coerceUTF8_valid, *]

/-- The loop of `GetAllVotes` when `Next` never fails and every value is
decoded: the records of the values, in the order of the iterator. -/
theorem scanLoop_ok (dec : GoString → Except GoError Vote) (h : Host) (w : World)
    (acc : List Vote)
    (hnext : ∀ p ∈ w, h.nextFault p.1 = none)
    (hdec : ∀ p ∈ w, ∃ v, dec p.2 = .ok v) :
    scanLoop dec h w acc = (acc ++ w.map fun p => recordOf dec p.2, none) := by
  induction w generalizing acc with
  | nil => simp [scanLoop]
  | cons p rest ih =>
    obtain ⟨k, value⟩ := p
    have h1 := hnext (k, value) (List.mem_cons_self _ _)
    obtain ⟨v, hv⟩ := hdec (k, value) (List.mem_cons_self _ _)
    simp only at h1 hv
    simp only [scanLoop, h1, hv]
    rw [ih _ (fun q hq => hnext q (List.mem_cons_of_mem _ hq))
      (fun q hq => hdec q (List.mem_cons_of_mem _ hq))]
    simp [recordOf, hv]

theorem getAllVotes_ok (dec : GoString → Except GoError Vote) (h : Host) (l : Ledger)
    (hrange : h.rangeFault = none)
    (hnext : ∀ key, h.nextFault key = none)
    (hdec : ∀ p ∈ l.world, ∃ v, dec p.2 = .ok v) :
    GetAllVotes dec h l = (l.world.map fun p => recordOf dec p.2, none) := by
  simp only [GetAllVotes, GetStateByRange, hrange]
  rw [scanLoop_ok dec h l.world [] (fun p _ => hnext p.1) hdec]
  simp

/-- Storing a value under a key that holds none inserts one pair and keeps
the others in place. -/
theorem World.put_absent (w : World) (key value : GoString) (habsent : w.get key = none) :
    ∃ n, n ≤ w.length ∧ w.put key value = w.take n ++ (key, value) :: w.drop n := by
  induction w with
  | nil => exact ⟨0, by simp, by simp [World.put]⟩
  | cons p rest ih =>
    obtain ⟨k, v⟩ := p
    simp only [World.get] at habsent
    split_ifs at habsent with hk
    simp only [World.put, if_neg hk]
    split_ifs with hlt
    · exact ⟨0, by simp, by simp⟩
    · obtain ⟨n, hn, he⟩ := ih habsent
      exact ⟨n + 1, by simpa using hn, by simp [he]⟩

/-- C3, as stated, fails: on a ledger that already holds the record "asset0",
`InitLedger` succeeds and `GetAllVotes` then returns seven records, the first
of which is not a seeded one. -/
theorem initLedger_list_seven :
    (InitLedger Host.reliable ledgerAsset0).1 = none ∧
      (GetAllVotes jsonUnmarshal Host.reliable (InitLedger Host.reliable ledgerAsset0).2).2 =
        none ∧
      (GetAllVotes jsonUnmarshal Host.reliable
        (InitLedger Host.reliable ledgerAsset0).2).1.length = 7 ∧
      (GetAllVotes jsonUnmarshal Host.reliable (InitLedger Host.reliable ledgerAsset0).2).1 =
        ⟨ascii "pink", ascii "1", ascii "asset0", ascii "Eve", ascii "SF"⟩ :: assets := by
  decide

/-- C3, amended. When the world state is in key order and holds no key other
than "asset1" .. "asset6" (an empty ledger, for one), and `InitLedger`
returns no error, then `GetAllVotes`, on a host whose range scan does not
fail and with a decoder that reads back what `json.Marshal` writes, returns
without error exactly the six records of `assets`, in the key order
"asset1" .. "asset6", each with its hardcoded fields. -/
theorem initLedger_then_list (dec : GoString → Except GoError Vote) (h h2 : Host) (l : Ledger)
    (hdec : DecodesMarshal dec)
    (hasc : l.world.ascending)
    (hkeys : ∀ p ∈ l.world, p.1 ∈ assets.map Vote.ID)
    (hinit : (InitLedger h l).1 = none)
    (hrange : h2.rangeFault = none)
    (hnext : ∀ key, h2.nextFault key = none) :
    GetAllVotes dec h2 (InitLedger h l).2 = (assets, none) ∧
      (GetAllVotes dec h2 (InitLedger h l).2).1.length = 6 ∧
      (GetAllVotes dec h2 (InitLedger h l).2).1.map Vote.ID =
        [ascii "asset1", ascii "asset2", ascii "asset3", ascii "asset4", ascii "asset5",
          ascii "asset6"] ∧
      (GetAllVotes dec h2 (InitLedger h l).2).1.head? =
        some { ID := ascii "asset1", Candidate := ascii "blue", CPR := ascii "202000-1821",
               Name := ascii "Tomoko", PoliticalParty := ascii "Venstre" } ∧
      (GetAllVotes dec h2 (InitLedger h l).2).1.getLast? =
        some { ID := ascii "asset6", Candidate := ascii "white", CPR := ascii "202000-1821",
               Name := ascii "Michel", PoliticalParty := ascii "Enhedslisten" } := by
  have hok := initLoop_ok_inv h assets l hinit
  have hrun : (InitLedger h l).2.world = putAll assets l.world := by
    unfold InitLedger
    rw [initLoop_ok h assets l hok]
  have hworld : putAll assets l.world = seeded := by
    apply World.ext _ _ (putAll_ascending assets l.world hasc) (by decide)
    intro key
    by_cases hk : key ∈ assets.map Vote.ID
    · obtain ⟨a, ha, rfl⟩ := List.mem_map.1 hk
      rw [putAll_get_mem assets l.world a ha (by decide)]
      have : ∀ a ∈ assets, seeded.get a.ID = some (voteJSON a) := by decide
      exact (this a ha).symm
    · rw [putAll_get_other assets l.world key (fun a ha heq =>
        hk (heq ▸ List.mem_map_of_mem Vote.ID ha))]
      have hn1 : l.world.get key = none := by
        cases hg : l.world.get key with
        | none => rfl
        | some v => exact absurd (hkeys _ (World.mem_of_get _ _ _ hg)) hk
      have hn2 : seeded.get key = none := by
        cases hg : seeded.get key with
        | none => rfl
        | some v =>
          have hm := World.mem_of_get _ _ _ hg
          have : ∀ p ∈ seeded, p.1 ∈ assets.map Vote.ID := by decide
          exact absurd (this _ hm) hk
      rw [hn1, hn2]
  have hvalues : ∀ p ∈ (InitLedger h l).2.world, ∃ v, dec p.2 = .ok v := by
    rw [hrun, hworld]
    intro p hp
    obtain ⟨a, _, rfl⟩ := List.mem_map.1 hp
    exact ⟨_, hdec a⟩
  have hlist : GetAllVotes dec h2 (InitLedger h l).2 = (assets, none) := by
    rw [getAllVotes_ok dec h2 _ hrange hnext hvalues, hrun, hworld]
    have hrec : ∀ a ∈ assets, recordOf dec (voteJSON a) = a := by
      intro a ha
      have hv : ∀ a ∈ assets, a.valid = true := by decide
      simp [recordOf, hdec a, Vote.coerce_valid a (hv a ha)]
    have : (seeded.map fun p => recordOf dec p.2) = assets := by
      simp only [seeded, putCalls, List.map_map]
      conv_rhs => rw [← List.map_id assets]
      apply List.map_congr_left
      intro a ha
      simpa using hrec a ha
    rw [this]
  refine ⟨hlist, ?_, ?_, ?_, ?_⟩ <;>
  · rw [hlist]; rfl

theorem initLedger_then_list_witness :
    GetAllVotes jsonUnmarshal Host.reliable (InitLedger Host.reliable Ledger.empty).2 =
        (assets, none) ∧
      (GetAllVotes jsonUnmarshal Host.reliable
        (InitLedger Host.reliable Ledger.empty).2).1.length = 6 ∧
      (GetAllVotes jsonUnmarshal Host.reliable
        (InitLedger Host.reliable Ledger.empty).2).1.map Vote.ID =
        [ascii "asset1", ascii "asset2", ascii "asset3", ascii "asset4", ascii "asset5",
          ascii "asset6"] ∧
      (GetAllVotes jsonUnmarshal Host.reliable
        (InitLedger Host.reliable Ledger.empty).2).1.head? =
        some { ID := ascii "asset1", Candidate := ascii "blue", CPR := ascii "202000-1821",
               Name := ascii "Tomoko", PoliticalParty := ascii "Venstre" } ∧
      (GetAllVotes jsonUnmarshal Host.reliable
        (InitLedger Host.reliable Ledger.empty).2).1.getLast? =
        some { ID := ascii "asset6", Candidate := ascii "white", CPR := ascii "202000-1821",
               Name := ascii "Michel", PoliticalParty := ascii "Enhedslisten" } :=
  initLedger_then_list jsonUnmarshal Host.reliable Host.reliable Ledger.empty
    jsonUnmarshal_voteJSON (by decide) (by decide) (by decide) rfl (fun _ => rfl)

theorem KeyIsID.put (w : World) (hw : KeyIsID w) (v : Vote) :
    KeyIsID (w.put v.ID (voteJSON v)) := by
  refine ⟨World.ascending_put w hw.1 _ _, ?_⟩
  intro p hp
  rcases World.mem_put w _ _ p hp with hp | hp
  · exact ⟨v, by rw [hp], by rw [hp]⟩
  · exact hw.2 p hp

/-- C10, as stated, fails: `CreateVote("v1", candidate, ...)` with the
candidate `0xFF`, a byte that is not valid UTF-8, succeeds on the empty
ledger, and `GetAllVotes` then returns one record, whose Candidate is the
encoding of U+FFFD and not the candidate passed in. -/
theorem createVote_list_coerced :
    (CreateVote Host.reliable Ledger.empty (ascii "v1") [0xFF] (ascii "1") (ascii "Ann")
        (ascii "SF")).1 = none ∧
      GetAllVotes jsonUnmarshal Host.reliable
          (CreateVote Host.reliable Ledger.empty (ascii "v1") [0xFF] (ascii "1") (ascii "Ann")
            (ascii "SF")).2 =
        ([⟨[0xEF, 0xBF, 0xBD], ascii "1", ascii "v1", ascii "Ann", ascii "SF"⟩], none) ∧
      (⟨[0xFF], ascii "1", ascii "v1", ascii "Ann", ascii "SF"⟩ : Vote) ∉
        (GetAllVotes jsonUnmarshal Host.reliable
          (CreateVote Host.reliable Ledger.empty (ascii "v1") [0xFF] (ascii "1") (ascii "Ann")
            (ascii "SF")).2).1 := by
  decide

/-- C10, amended. Let the world state be in key order, let every value in it
be decoded by `dec`, a decoder that reads back what `json.Marshal` writes, and
let `id` hold no value.  When `CreateVote` returns no error, `GetAllVotes` on a
host whose range scan does not fail succeeds before and after the call; after
the call the world state is still in key order, with one new pair at some
position `n`, and the returned list is the list returned before with one new
record at position `n`.  The fields of the new record are `candidate`, `cpr`,
`id`, `name` and `party` coerced to valid UTF-8: they are these arguments
themselves when the arguments are valid UTF-8. -/
theorem createVote_then_list (dec : GoString → Except GoError Vote) (h h2 : Host) (l : Ledger)
    (id candidate cpr name politicalParty : GoString)
    (hdec : DecodesMarshal dec)
    (hasc : l.world.ascending)
    (hall : ∀ p ∈ l.world, ∃ v, dec p.2 = .ok v)
    (habsent : l.world.get id = none)
    (hcreate : (CreateVote h l id candidate cpr name politicalParty).1 = none)
    (hrange : h2.rangeFault = none)
    (hnext : ∀ key, h2.nextFault key = none) :
    ∃ n, n ≤ l.world.length ∧
      (GetAllVotes dec h2 l).2 = none ∧
      (CreateVote h l id candidate cpr name politicalParty).2.world =
        l.world.take n ++
          (id, voteJSON ⟨candidate, cpr, id, name, politicalParty⟩) :: l.world.drop n ∧
      (CreateVote h l id candidate cpr name politicalParty).2.world.ascending ∧
      GetAllVotes dec h2 (CreateVote h l id candidate cpr name politicalParty).2 =
        ((GetAllVotes dec h2 l).1.take n ++
          Vote.coerce ⟨candidate, cpr, id, name, politicalParty⟩ ::
            (GetAllVotes dec h2 l).1.drop n, none) ∧
      (Vote.valid ⟨candidate, cpr, id, name, politicalParty⟩ = true →
        Vote.coerce ⟨candidate, cpr, id, name, politicalParty⟩ =
          ⟨candidate, cpr, id, name, politicalParty⟩) := by
  have hworld : (CreateVote h l id candidate cpr name politicalParty).2.world =
      l.world.put id (voteJSON ⟨candidate, cpr, id, name, politicalParty⟩) := by
    simp only [CreateVote, VoteExists, GetState, jsonMarshal, PutState, habsent] at hcreate ⊢
    cases hg : h.getFault id with
    | some e => simp [hg] at hcreate
    | none =>
      cases hp : h.putFault id (voteJSON ⟨candidate, cpr, id, name, politicalParty⟩) with
      | some e => simp [hg, hp] at hcreate
      | none => simp
  obtain ⟨n, hn, hput⟩ := World.put_absent l.world id
    (voteJSON ⟨candidate, cpr, id, name, politicalParty⟩) habsent
  have hbefore := getAllVotes_ok dec h2 l hrange hnext hall
  have hall2 : ∀ p ∈ (CreateVote h l id candidate cpr name politicalParty).2.world,
      ∃ v, dec p.2 = .ok v := by
    rw [hworld]
    intro p hp
    rcases World.mem_put _ _ _ p hp with hp | hp
    · exact ⟨_, by rw [hp]; exact hdec _⟩
    · exact hall p hp
  have hnew : recordOf dec (voteJSON ⟨candidate, cpr, id, name, politicalParty⟩) =
      Vote.coerce ⟨candidate, cpr, id, name, politicalParty⟩ := by
    simp [recordOf, hdec _]
  refine ⟨n, hn, by rw [hbefore], by rw [hworld, hput], ?_, ?_, Vote.coerce_valid _⟩
  · rw [hworld]
    exact World.ascending_put l.world hasc _ _
  · rw [getAllVotes_ok dec h2 _ hrange hnext hall2, hbefore, hworld, hput]
    simp [List.map_take, List.map_drop, hnew]

theorem createVote_then_list_witness :
    ∃ n, n ≤ ledgerAsset0.world.length ∧
      (GetAllVotes jsonUnmarshal Host.reliable ledgerAsset0).2 = none ∧
      (CreateVote Host.reliable ledgerAsset0 (ascii "v1") (ascii "blue") (ascii "1") (ascii "Ann")
          (ascii "SF")).2.world =
        ledgerAsset0.world.take n ++
          (ascii "v1", voteJSON ⟨ascii "blue", ascii "1", ascii "v1", ascii "Ann", ascii "SF"⟩) ::
            ledgerAsset0.world.drop n ∧
      (CreateVote Host.reliable ledgerAsset0 (ascii "v1") (ascii "blue") (ascii "1") (ascii "Ann")
          (ascii "SF")).2.world.ascending ∧
      GetAllVotes jsonUnmarshal Host.reliable
          (CreateVote Host.reliable ledgerAsset0 (ascii "v1") (ascii "blue") (ascii "1")
            (ascii "Ann") (ascii "SF")).2 =
        ((GetAllVotes jsonUnmarshal Host.reliable ledgerAsset0).1.take n ++
          Vote.coerce ⟨ascii "blue", ascii "1", ascii "v1", ascii "Ann", ascii "SF"⟩ ::
            (GetAllVotes jsonUnmarshal Host.reliable ledgerAsset0).1.drop n, none) ∧
      (Vote.valid ⟨ascii "blue", ascii "1", ascii "v1", ascii "Ann", ascii "SF"⟩ = true →
        Vote.coerce ⟨ascii "blue", ascii "1", ascii "v1", ascii "Ann", ascii "SF"⟩ =
          ⟨ascii "blue", ascii "1", ascii "v1", ascii "Ann", ascii "SF"⟩) :=
  createVote_then_list jsonUnmarshal Host.reliable Host.reliable ledgerAsset0 (ascii "v1")
    (ascii "blue") (ascii "1") (ascii "Ann") (ascii "SF") jsonUnmarshal_voteJSON (by decide)
    (fun p hp => by
      have hw : ledgerAsset0.world =
          [(ascii "asset0", voteJSON ⟨ascii "pink", ascii "1", ascii "asset0", ascii "Eve",
            ascii "SF"⟩)] := by decide
      rw [hw, List.mem_singleton] at hp
      exact ⟨_, by rw [hp]; exact jsonUnmarshal_voteJSON _⟩)
    (by decide) (by decide) rfl (fun _ => rfl)

end Atcc
